import Mathlib

/-!
Verification development for the sorting-visualization engine of the
HeadBook repository (`src/static/js/sorting-visualization.js`).

The JavaScript engine keeps, for each algorithm variant, a mutable record
`{ array, isSorting, currentStep }`, and runs the sorting algorithms as
suspending procedures that mutate the array in place and emit a render
call (`createBars(type, array, highlights)`) after every order-changing
mutation.  We embed this shallowly: arrays become `List Int`, in-place
mutation becomes explicit state passing, each JavaScript `for`/`while`
loop becomes a recursion on its trip count, and every `createBars` call
becomes a `RenderEvent` recorded in an output list, carrying the
highlighted indices and the full array snapshot at the moment of the call.
-/

/-- One call to `createBars`: the highlighted indices and the array
snapshot passed to the render sink. -/
structure RenderEvent where
  highlights : List Nat
  snapshot : List Int
deriving DecidableEq

/- ### Configuration (lines 1–5 of the source) -/

def ARRAY_SIZE : Nat := 20
def MIN_VALUE : Int := 5
def MAX_VALUE : Int := 95

/- ### Bubble sort (lines 61–77)

```js
async function bubbleSort() {
  const { array } = sortStates.bubble;
  const n = array.length;
  let swapped;
  do {
    swapped = false;
    for (let i = 0; i < n - 1; i++) {
      if (array[i] > array[i + 1]) {
        [array[i], array[i + 1]] = [array[i + 1], array[i]];
        createBars('bubble', array, [i, i + 1]);
        await ...;
        swapped = true;
      }
    }
  } while (swapped);
}
```

The inner `for` loop walks the array left to right comparing the element
at position `i` with its right neighbour.  We embed it structurally:
`cur` is the element currently sitting at position `pre.length` (the next
comparison index), `pre` is the already-processed prefix of the array,
and the remaining list is everything to the right of `cur`.  The returned
`Bool` is the `swapped` flag of one full pass. -/

def bubblePassRun (pre : List Int) (cur : Int) : List Int → List Int × List RenderEvent × Bool
  | [] => ([cur], [], false)
  | y :: rest =>
    if cur > y then
      let p := bubblePassRun (pre ++ [y]) cur rest
      (y :: p.1, ⟨[pre.length, pre.length + 1], pre ++ y :: cur :: rest⟩ :: p.2.1, true)
    else
      let p := bubblePassRun (pre ++ [cur]) y rest
      (cur :: p.1, p.2.1, p.2.2)

/-- One full pass of the bubble-sort inner `for` loop: the array after the
pass, the render events emitted (one per swap), and the `swapped` flag. -/
def bubblePass (l : List Int) : List Int × List RenderEvent × Bool :=
  match l with
  | [] => ([], [], false)
  | x :: rest => bubblePassRun [] x rest

/-- Number of inversions of a list; the termination measure for the
`do … while (swapped)` loop of `bubbleSort`. -/
def inversions : List Int → Nat
  | [] => 0
  | a :: t => t.countP (fun b => decide (b < a)) + inversions t

/-- The `do … while (swapped)` loop of `bubbleSort`, run with an explicit
iteration budget.  The loop body runs one full pass and repeats while the
pass swapped something.  `bubbleSort` supplies budget `inversions l + 1`,
which is proved sufficient below (each swapping pass strictly decreases
`inversions`). -/
def bubbleLoopGo : Nat → List Int → List Int × List RenderEvent
  | 0, l => (l, [])
  | k + 1, l =>
    let p := bubblePass l
    if p.2.2 then
      let q := bubbleLoopGo k p.1
      (q.1, p.2.1 ++ q.2)
    else
      (p.1, p.2.1)

/-- `bubbleSort`: the final array together with the full ordered sequence
of render events of the run. -/
def bubbleSort (l : List Int) : List Int × List RenderEvent :=
  bubbleLoopGo (inversions l + 1) l

example : bubbleSort [2, 1] = ([1, 2], [⟨[0, 1], [1, 2]⟩]) := by decide
example : bubbleSort [3, 1, 2] =
    ([1, 2, 3], [⟨[0, 1], [1, 3, 2]⟩, ⟨[1, 2], [1, 2, 3]⟩]) := by decide
example : bubbleSort [1, 2, 3] = ([1, 2, 3], []) := by decide

/- ### Bubble sort lemmas -/

/-- The array after one pass of the inner loop is a permutation of the
element under scrutiny followed by the remaining elements. -/
theorem bubblePassRun_perm : ∀ (l pre : List Int) (cur : Int),
    (bubblePassRun pre cur l).1.Perm (cur :: l)
  | [], _, _ => by simp [bubblePassRun]
  | y :: rest, pre, cur => by
    by_cases h : cur > y
    · simp only [bubblePassRun, if_pos h]
      exact ((bubblePassRun_perm rest (pre ++ [y]) cur).cons y).trans
        (List.Perm.swap cur y rest)
    · simp only [bubblePassRun, if_neg h]
      exact (bubblePassRun_perm rest (pre ++ [cur]) y).cons cur

/-- If the inner loop reports no swap, it changed nothing, emitted nothing,
and the scanned elements were already pairwise in order. -/
theorem bubblePassRun_false : ∀ (l pre : List Int) (cur : Int),
    (bubblePassRun pre cur l).2.2 = false →
      (bubblePassRun pre cur l).1 = cur :: l ∧
      (bubblePassRun pre cur l).2.1 = [] ∧
      List.Chain' (· ≤ ·) (cur :: l)
  | [], _, cur => fun _ => ⟨rfl, rfl, List.chain'_singleton cur⟩
  | y :: rest, pre, cur => by
    by_cases h : cur > y
    · intro hf
      simp [bubblePassRun, if_pos h] at hf
    · intro hf
      simp only [bubblePassRun, if_neg h] at hf ⊢
      obtain ⟨h1, h2, h3⟩ := bubblePassRun_false rest (pre ++ [cur]) y hf
      exact ⟨by rw [h1], h2, List.chain'_cons.mpr ⟨not_lt.mp h, h3⟩⟩

/-- On an already-ordered segment the inner loop is the identity: no swap,
no render event. -/
theorem bubblePassRun_sorted : ∀ (l pre : List Int) (cur : Int),
    List.Chain' (· ≤ ·) (cur :: l) →
      bubblePassRun pre cur l = (cur :: l, [], false)
  | [], _, _ => fun _ => rfl
  | y :: rest, pre, cur => fun hc => by
    have h1 : cur ≤ y := (List.chain'_cons.mp hc).1
    have hng : ¬ cur > y := not_lt.mpr h1
    simp only [bubblePassRun, if_neg hng,
      bubblePassRun_sorted rest (pre ++ [cur]) y (List.chain'_cons.mp hc).2]

/-- A pass never increases the inversion count, and a pass that swapped
strictly decreases it. -/
theorem bubblePassRun_inversions : ∀ (l pre : List Int) (cur : Int),
    inversions (bubblePassRun pre cur l).1 +
      (if (bubblePassRun pre cur l).2.2 then 1 else 0) ≤ inversions (cur :: l)
  | [], _, cur => by simp [bubblePassRun, inversions]
  | y :: rest, pre, cur => by
    by_cases h : cur > y
    · simp only [bubblePassRun, if_pos h, if_true]
      have hperm := (bubblePassRun_perm rest (pre ++ [y]) cur).countP_eq
        (fun b => decide (b < y))
      have hih := bubblePassRun_inversions rest (pre ++ [y]) cur
      have hcnt : ((bubblePassRun (pre ++ [y]) cur rest).1.countP
          (fun b => decide (b < y))) = rest.countP (fun b => decide (b < y)) := by
        rw [hperm, List.countP_cons]
        simp [not_lt.mpr (le_of_lt h)]
      simp only [inversions, hcnt]
      simp only [inversions, List.countP_cons] at hih ⊢
      have hy : (if (decide (y < cur)) = true then 1 else 0) = 1 := by simp [h]
      rw [hy]
      split at hih <;> omega
    · simp only [bubblePassRun, if_neg h]
      have hperm := (bubblePassRun_perm rest (pre ++ [cur]) y).countP_eq
        (fun b => decide (b < cur))
      have hih := bubblePassRun_inversions rest (pre ++ [cur]) y
      have h' : ¬ (y < cur) := h
      have hcnt : ((bubblePassRun (pre ++ [cur]) y rest).1.countP
          (fun b => decide (b < cur))) = rest.countP (fun b => decide (b < cur)) := by
        rw [hperm, List.countP_cons]
        simp [h']
      have hy : (y :: rest).countP (fun b => decide (b < cur)) =
          rest.countP (fun b => decide (b < cur)) := by
        rw [List.countP_cons]
        simp [h']
      simp only [inversions, hcnt, hy] at hih ⊢
      cases hb : (bubblePassRun (pre ++ [cur]) y rest).2.2 <;>
        simp only [hb] at hih ⊢ <;> simp at hih ⊢ <;> omega

theorem bubblePass_perm (l : List Int) : (bubblePass l).1.Perm l := by
  match l with
  | [] => simp [bubblePass]
  | x :: rest => exact bubblePassRun_perm rest [] x

theorem bubblePass_false (l : List Int) (h : (bubblePass l).2.2 = false) :
    (bubblePass l).1 = l ∧ (bubblePass l).2.1 = [] ∧ List.Chain' (· ≤ ·) l := by
  match l with
  | [] => exact ⟨rfl, rfl, List.chain'_nil⟩
  | x :: rest => exact bubblePassRun_false rest [] x h

theorem bubblePass_of_sorted (l : List Int) (h : List.Chain' (· ≤ ·) l) :
    bubblePass l = (l, [], false) := by
  match l with
  | [] => rfl
  | x :: rest => exact bubblePassRun_sorted rest [] x h

theorem bubblePass_inversions (l : List Int) :
    inversions (bubblePass l).1 +
      (if (bubblePass l).2.2 then 1 else 0) ≤ inversions l := by
  match l with
  | [] => simp [bubblePass]
  | x :: rest => exact bubblePassRun_inversions rest [] x

theorem bubblePass_inversions_lt (l : List Int)
    (h : (bubblePass l).2.2 = true) :
    inversions (bubblePass l).1 < inversions l := by
  have := bubblePass_inversions l
  rw [h] at this
  simpa using this

/- ### Bubble sort loop lemmas -/

theorem bubbleLoopGo_perm : ∀ (k : Nat) (l : List Int),
    (bubbleLoopGo k l).1.Perm l
  | 0, l => by simp [bubbleLoopGo]
  | k + 1, l => by
    cases hb : (bubblePass l).2.2 <;> simp only [bubbleLoopGo, hb]
    · simpa using bubblePass_perm l
    · simpa using (bubbleLoopGo_perm k (bubblePass l).1).trans (bubblePass_perm l)

/-- With an iteration budget exceeding the inversion count, the loop result
is pairwise ordered. -/
theorem bubbleLoopGo_sorted : ∀ (k : Nat) (l : List Int), inversions l < k →
    List.Chain' (· ≤ ·) (bubbleLoopGo k l).1
  | 0, _, hk => absurd hk (by omega)
  | k + 1, l, hk => by
    cases hb : (bubblePass l).2.2 <;> simp only [bubbleLoopGo, hb]
    · obtain ⟨h1, _, h3⟩ := bubblePass_false l hb
      simpa [h1] using h3
    · have hlt := bubblePass_inversions_lt l hb
      simpa using bubbleLoopGo_sorted k (bubblePass l).1 (by omega)

/-- Any two sufficient iteration budgets give the same run: the loop really
exits through its zero-swap condition, not by exhausting the budget. -/
theorem bubbleLoopGo_stable : ∀ (k k' : Nat) (l : List Int),
    inversions l < k → inversions l < k' →
    bubbleLoopGo k l = bubbleLoopGo k' l
  | 0, _, _, hk, _ => absurd hk (by omega)
  | _ + 1, 0, _, _, hk' => absurd hk' (by omega)
  | k + 1, k' + 1, l, hk, hk' => by
    cases hb : (bubblePass l).2.2 <;> simp only [bubbleLoopGo, hb]
    · simp
    · have hlt := bubblePass_inversions_lt l hb
      rw [bubbleLoopGo_stable k k' (bubblePass l).1 (by omega) (by omega)]

theorem bubbleSort_perm (l : List Int) : (bubbleSort l).1.Perm l :=
  bubbleLoopGo_perm _ l

theorem bubbleSort_sorted (l : List Int) :
    List.Chain' (· ≤ ·) (bubbleSort l).1 :=
  bubbleLoopGo_sorted _ l (by omega)

/-- A full pass over the final array of a bubble-sort run swaps nothing:
the `do … while` loop ended because a pass performed zero swaps. -/
theorem bubbleSort_final_pass (l : List Int) :
    (bubblePass (bubbleSort l).1).2.2 = false := by
  rw [bubblePass_of_sorted _ (bubbleSort_sorted l)]

/-- The `do … while (swapped)` recurrence satisfied by `bubbleSort`:
run one pass; repeat from the passed array exactly when it swapped. -/
theorem bubbleSort_unfold (l : List Int) :
    bubbleSort l =
      if (bubblePass l).2.2 then
        ((bubbleSort (bubblePass l).1).1,
          (bubblePass l).2.1 ++ (bubbleSort (bubblePass l).1).2)
      else
        ((bubblePass l).1, (bubblePass l).2.1) := by
  cases hb : (bubblePass l).2.2
  · simp [bubbleSort, bubbleLoopGo, hb]
  · have hlt := bubblePass_inversions_lt l hb
    have hstable : bubbleLoopGo (inversions l) (bubblePass l).1
        = bubbleSort (bubblePass l).1 :=
      bubbleLoopGo_stable _ _ _ (by omega) (by omega)
    conv_lhs => rw [bubbleSort, bubbleLoopGo]
    simp [hb, hstable]

/-- Iterating full passes always eventually reaches a pass that performs
zero swaps. -/
theorem bubblePass_eventually_no_swap_of_lt :
    ∀ (n : Nat) (l : List Int), inversions l < n →
    ∃ k, (bubblePass ((fun a => (bubblePass a).1)^[k] l)).2.2 = false
  | 0, _, hn => absurd hn (by omega)
  | n + 1, l, hn => by
    cases hb : (bubblePass l).2.2
    · exact ⟨0, by simpa using hb⟩
    · have hlt := bubblePass_inversions_lt l hb
      obtain ⟨k, hk⟩ :=
        bubblePass_eventually_no_swap_of_lt n (bubblePass l).1 (by omega)
      exact ⟨k + 1, by simpa [Function.iterate_succ_apply] using hk⟩

/- ### Selection sort (lines 80–99)

```js
async function selectionSort() {
  const { array } = sortStates.selection;
  const n = array.length;
  for (let i = 0; i < n - 1; i++) {
    let minIndex = i;
    for (let j = i + 1; j < n; j++) {
      if (array[j] < array[minIndex]) { minIndex = j; }
    }
    if (minIndex !== i) {
      [array[i], array[minIndex]] = [array[minIndex], array[i]];
      createBars('selection', array, [i, minIndex]);
      await ...;
    }
  }
}
```

Each JavaScript loop is embedded as a recursion on its trip count: the
inner scan runs for `n - (i+1)` iterations starting at `j = i+1`, the
outer loop for `n - 1` iterations starting at `i = 0`.  Array reads
`array[j]` become `List.getD` at in-range indices. -/

def findMinGo : Nat → List Int → Nat → Nat → Nat
  | 0, _, mi, _ => mi
  | k + 1, a, mi, j =>
    if a.getD j 0 < a.getD mi 0 then findMinGo k a j (j + 1)
    else findMinGo k a mi (j + 1)

/-- The inner scan of `selectionSort`: the index of the first minimum of
the suffix starting at `i` (starting candidate `minIndex = i`, scanning
`j = i+1 … n-1`). -/
def findMinIdx (a : List Int) (i : Nat) : Nat :=
  findMinGo (a.length - (i + 1)) a i (i + 1)

/-- The destructuring swap `[array[i], array[k]] = [array[k], array[i]]`:
both sides read before either write. -/
def swapIdx (a : List Int) (i k : Nat) : List Int :=
  (a.set i (a.getD k 0)).set k (a.getD i 0)

/-- One iteration of the outer `for` loop of `selectionSort`. -/
def selStep (a : List Int) (i : Nat) : List Int × List RenderEvent :=
  let mi := findMinIdx a i
  if mi ≠ i then
    let a2 := swapIdx a i mi
    (a2, [⟨[i, mi], a2⟩])
  else (a, [])

def selLoopGo : Nat → List Int → Nat → List Int × List RenderEvent
  | 0, a, _ => (a, [])
  | k + 1, a, i =>
    let p := selStep a i
    let q := selLoopGo k p.1 (i + 1)
    (q.1, p.2 ++ q.2)

/-- `selectionSort`: final array and the ordered render events of the run. -/
def selectionSort (a : List Int) : List Int × List RenderEvent :=
  selLoopGo (a.length - 1) a 0

example : selectionSort [3, 1, 2] =
    ([1, 2, 3], [⟨[0, 1], [1, 3, 2]⟩, ⟨[1, 2], [1, 2, 3]⟩]) := by decide
example : selectionSort [1, 2, 3] = ([1, 2, 3], []) := by decide
example : selectionSort [2, 1] = ([1, 2], [⟨[0, 1], [1, 2]⟩]) := by decide

/- ### `getD`/`set` helper lemmas -/

theorem getD_set_ne (a : List Int) (i j : Nat) (x : Int) (h : i ≠ j) :
    (a.set i x).getD j 0 = a.getD j 0 := by
  simp [List.getD_eq_getElem?_getD, List.getElem?_set_ne h]

theorem getD_set_self (a : List Int) (i : Nat) (x : Int) (h : i < a.length) :
    (a.set i x).getD i 0 = x := by
  simp [List.getD_eq_getElem?_getD, List.getElem?_set_self h]

theorem getD_eq_getElem_of_lt (a : List Int) (n : Nat) (h : n < a.length) :
    a.getD n 0 = a[n] := by
  simp [List.getD_eq_getElem?_getD, List.getElem?_eq_getElem h]

/-- Pairwise order of a list of integers, phrased through `getD` reads. -/
theorem pairwise_le_iff_getD (l : List Int) :
    l.Pairwise (· ≤ ·) ↔
      ∀ p q, p < q → q < l.length → l.getD p 0 ≤ l.getD q 0 := by
  rw [List.pairwise_iff_getElem]
  constructor
  · intro h p q hpq hq
    rw [getD_eq_getElem_of_lt l p (Nat.lt_trans hpq hq),
      getD_eq_getElem_of_lt l q hq]
    exact h p q (Nat.lt_trans hpq hq) hq hpq
  · intro h p q hp hq hpq
    have := h p q hpq hq
    rwa [getD_eq_getElem_of_lt l p (Nat.lt_trans hpq hq),
      getD_eq_getElem_of_lt l q hq] at this

theorem length_swapIdx (a : List Int) (i k : Nat) :
    (swapIdx a i k).length = a.length := by
  simp [swapIdx]

/-- Replacing position `j` and re-consing the read value permutes `x :: t`. -/
theorem set_cons_perm : ∀ (t : List Int) (j : Nat) (x : Int), j < t.length →
    (t.getD j 0 :: t.set j x).Perm (x :: t)
  | b :: t', 0, x, _ => by
    simpa using List.Perm.swap x b t'
  | b :: t', j + 1, x, h => by
    have ih := set_cons_perm t' j x (Nat.lt_of_succ_lt_succ (by simpa using h))
    have s1 : (t'.getD j 0 :: b :: t'.set j x).Perm
        (b :: t'.getD j 0 :: t'.set j x) := List.Perm.swap b (t'.getD j 0) _
    simpa using s1.trans ((ih.cons b).trans (List.Perm.swap x b t'))

/-- The in-place swap of two distinct in-range positions is a permutation. -/
theorem swapIdx_perm : ∀ (a : List Int) (i k : Nat), i < k → k < a.length →
    (swapIdx a i k).Perm a
  | [], _, _, _, hk => by simp at hk
  | _ :: _, _, 0, hik, _ => by omega
  | x :: t, 0, k + 1, _, hk => by
    have hk' : k < t.length := Nat.lt_of_succ_lt_succ (by simpa using hk)
    simpa [swapIdx] using set_cons_perm t k x hk'
  | x :: t, i + 1, k + 1, hik, hk => by
    have ih := swapIdx_perm t i k (Nat.lt_of_succ_lt_succ hik)
      (Nat.lt_of_succ_lt_succ (by simpa using hk))
    simpa [swapIdx] using ih.cons x

theorem getD_swapIdx_left (a : List Int) (i k : Nat) (hi : i < a.length)
    (hik : i ≠ k) : (swapIdx a i k).getD i 0 = a.getD k 0 := by
  rw [swapIdx, getD_set_ne _ _ _ _ (Ne.symm hik), getD_set_self _ _ _ hi]

theorem getD_swapIdx_right (a : List Int) (i k : Nat) (hk : k < a.length) :
    (swapIdx a i k).getD k 0 = a.getD i 0 := by
  rw [swapIdx, getD_set_self _ _ _ (by simpa using hk)]

theorem getD_swapIdx_other (a : List Int) (i k t : Nat) (h1 : t ≠ i)
    (h2 : t ≠ k) : (swapIdx a i k).getD t 0 = a.getD t 0 := by
  rw [swapIdx, getD_set_ne _ _ _ _ (Ne.symm h2), getD_set_ne _ _ _ _ (Ne.symm h1)]

/- ### Selection sort lemmas -/

/-- The scan result indexes a value no larger than the running candidate
and no larger than any element of the scanned range. -/
theorem findMinGo_min : ∀ (k : Nat) (a : List Int) (mi j : Nat),
    j + k = a.length →
    a.getD (findMinGo k a mi j) 0 ≤ a.getD mi 0 ∧
    ∀ t, j ≤ t → t < a.length → a.getD (findMinGo k a mi j) 0 ≤ a.getD t 0
  | 0, a, mi, j, h =>
    ⟨le_refl _, fun t ht1 ht2 => absurd ht2 (by omega)⟩
  | k + 1, a, mi, j, h => by
    by_cases hc : a.getD j 0 < a.getD mi 0
    · simp only [findMinGo, if_pos hc]
      obtain ⟨ih1, ih2⟩ := findMinGo_min k a j (j + 1) (by omega)
      refine ⟨le_trans ih1 (le_of_lt hc), fun t ht1 ht2 => ?_⟩
      rcases eq_or_lt_of_le ht1 with rfl | ht
      · exact ih1
      · exact ih2 t (by omega) ht2
    · simp only [findMinGo, if_neg hc]
      obtain ⟨ih1, ih2⟩ := findMinGo_min k a mi (j + 1) (by omega)
      refine ⟨ih1, fun t ht1 ht2 => ?_⟩
      rcases eq_or_lt_of_le ht1 with rfl | ht
      · exact le_trans ih1 (not_lt.mp hc)
      · exact ih2 t (by omega) ht2

/-- The scan result is either the starting candidate or an in-range index
holding a strictly smaller value. -/
theorem findMinGo_cases : ∀ (k : Nat) (a : List Int) (mi j : Nat),
    j + k = a.length →
    findMinGo k a mi j = mi ∨
      (j ≤ findMinGo k a mi j ∧ findMinGo k a mi j < a.length ∧
        a.getD (findMinGo k a mi j) 0 < a.getD mi 0)
  | 0, _, _, _, _ => Or.inl rfl
  | k + 1, a, mi, j, h => by
    by_cases hc : a.getD j 0 < a.getD mi 0
    · simp only [findMinGo, if_pos hc]
      rcases findMinGo_cases k a j (j + 1) (by omega) with heq | ⟨h1, h2, h3⟩
      · exact Or.inr ⟨by omega, by omega, by rw [heq]; exact hc⟩
      · exact Or.inr ⟨by omega, h2, lt_trans h3 hc⟩
    · simp only [findMinGo, if_neg hc]
      rcases findMinGo_cases k a mi (j + 1) (by omega) with heq | ⟨h1, h2, h3⟩
      · exact Or.inl heq
      · exact Or.inr ⟨by omega, h2, h3⟩

theorem findMinIdx_min (a : List Int) (i : Nat) (h : i < a.length) :
    a.getD (findMinIdx a i) 0 ≤ a.getD i 0 ∧
    ∀ t, i + 1 ≤ t → t < a.length → a.getD (findMinIdx a i) 0 ≤ a.getD t 0 :=
  findMinGo_min (a.length - (i + 1)) a i (i + 1) (by omega)

theorem findMinIdx_cases (a : List Int) (i : Nat) (h : i < a.length) :
    findMinIdx a i = i ∨
      (i + 1 ≤ findMinIdx a i ∧ findMinIdx a i < a.length ∧
        a.getD (findMinIdx a i) 0 < a.getD i 0) :=
  findMinGo_cases (a.length - (i + 1)) a i (i + 1) (by omega)

/-- The scanned minimum sits away from `i` precisely when some strictly
smaller element occurs after `i`. -/
theorem findMinIdx_ne_iff (a : List Int) (i : Nat) :
    findMinIdx a i ≠ i ↔
      ∃ j, i < j ∧ j < a.length ∧ a.getD j 0 < a.getD i 0 := by
  by_cases hi : i < a.length
  · constructor
    · intro hne
      rcases findMinIdx_cases a i hi with heq | ⟨h1, h2, h3⟩
      · exact absurd heq hne
      · exact ⟨findMinIdx a i, by omega, h2, h3⟩
    · rintro ⟨j, hj1, hj2, hj3⟩ heq
      have := (findMinIdx_min a i hi).2 j (by omega) hj2
      rw [heq] at this
      omega
  · have h0 : a.length - (i + 1) = 0 := by omega
    constructor
    · intro hne
      exact absurd (by rw [findMinIdx, h0]; rfl) hne
    · rintro ⟨j, hj1, hj2, _⟩
      omega

/-- Outer-loop invariant of `selectionSort`: if every element before
position `i` is at most every later element, the remaining iterations
deliver a permutation of the array that is pairwise ordered. -/
theorem selLoopGo_sorted_perm : ∀ (k : Nat) (a : List Int) (i : Nat),
    i + 1 + k = a.length →
    (∀ p q, p < i → p < q → q < a.length → a.getD p 0 ≤ a.getD q 0) →
    (selLoopGo k a i).1.Perm a ∧
    ∀ p q, p < q → q < a.length →
      (selLoopGo k a i).1.getD p 0 ≤ (selLoopGo k a i).1.getD q 0
  | 0, a, i, hlen, hinv => by
    simp only [selLoopGo]
    exact ⟨List.Perm.refl a, fun p q hpq hq => hinv p q (by omega) hpq hq⟩
  | k + 1, a, i, hlen, hinv => by
    have hi : i < a.length := by omega
    by_cases hmi : findMinIdx a i = i
    · have hstep : selStep a i = (a, []) := by simp [selStep, hmi]
      have hinv' : ∀ p q, p < i + 1 → p < q → q < a.length →
          a.getD p 0 ≤ a.getD q 0 := by
        intro p q hp hpq hq
        rcases Nat.lt_or_ge p i with hpi | hpi
        · exact hinv p q hpi hpq hq
        · have hpi' : p = i := by omega
          have := (findMinIdx_min a i hi).2 q (by omega) hq
          rw [hmi] at this
          rw [hpi']
          exact this
      obtain ⟨ihp, ihs⟩ := selLoopGo_sorted_perm k a (i + 1) (by omega) hinv'
      simp only [selLoopGo, hstep]
      exact ⟨ihp, fun p q hpq hq => ihs p q hpq hq⟩
    · rcases findMinIdx_cases a i hi with heq | ⟨h1, h2, h3⟩
      · exact absurd heq hmi
      have hstep : selStep a i = (swapIdx a i (findMinIdx a i),
          [⟨[i, findMinIdx a i], swapIdx a i (findMinIdx a i)⟩]) := by
        simp [selStep, hmi]
      have hlen2 : (swapIdx a i (findMinIdx a i)).length = a.length :=
        length_swapIdx a i (findMinIdx a i)
      have hL : (swapIdx a i (findMinIdx a i)).getD i 0
          = a.getD (findMinIdx a i) 0 :=
        getD_swapIdx_left a i (findMinIdx a i) hi (by omega)
      have hR : (swapIdx a i (findMinIdx a i)).getD (findMinIdx a i) 0
          = a.getD i 0 :=
        getD_swapIdx_right a i (findMinIdx a i) h2
      have hO : ∀ t, t ≠ i → t ≠ findMinIdx a i →
          (swapIdx a i (findMinIdx a i)).getD t 0 = a.getD t 0 :=
        fun t ht1 ht2 => getD_swapIdx_other a i (findMinIdx a i) t ht1 ht2
      have hmin := findMinIdx_min a i hi
      have hinv' : ∀ p q, p < i + 1 → p < q →
          q < (swapIdx a i (findMinIdx a i)).length →
          (swapIdx a i (findMinIdx a i)).getD p 0 ≤
            (swapIdx a i (findMinIdx a i)).getD q 0 := by
        intro p q hp hpq hq
        rw [hlen2] at hq
        rcases Nat.lt_or_ge p i with hpi | hpi
        · rw [hO p (by omega) (by omega)]
          by_cases hqi : q = i
          · rw [hqi, hL]
            exact hinv p (findMinIdx a i) hpi (by omega) h2
          · by_cases hqm : q = findMinIdx a i
            · rw [hqm, hR]
              exact hinv p i hpi (by omega) hi
            · rw [hO q hqi hqm]
              exact hinv p q hpi hpq hq
        · have hpi' : p = i := by omega
          rw [hpi', hL]
          by_cases hqm : q = findMinIdx a i
          · rw [hqm, hR]
            exact hmin.1
          · rw [hO q (by omega) hqm]
            exact hmin.2 q (by omega) hq
      obtain ⟨ihp, ihs⟩ := selLoopGo_sorted_perm k
        (swapIdx a i (findMinIdx a i)) (i + 1) (by omega) hinv'
      constructor
      · simp only [selLoopGo, hstep]
        exact ihp.trans (swapIdx_perm a i (findMinIdx a i) (by omega) h2)
      · intro p q hpq hq
        simp only [selLoopGo, hstep]
        exact ihs p q hpq (by omega)

theorem selectionSort_perm (a : List Int) : (selectionSort a).1.Perm a := by
  match ha : a with
  | [] => simp [selectionSort, selLoopGo]
  | x :: t =>
    exact (selLoopGo_sorted_perm ((x :: t).length - 1) (x :: t) 0
      (by simp only [List.length_cons]; omega)
      (fun p q hp _ _ => absurd hp (by omega))).1

theorem selectionSort_sorted (a : List Int) :
    (selectionSort a).1.Pairwise (· ≤ ·) := by
  match ha : a with
  | [] => simp [selectionSort, selLoopGo]
  | x :: t =>
    obtain ⟨hperm, hsort⟩ := selLoopGo_sorted_perm ((x :: t).length - 1)
      (x :: t) 0 (by simp only [List.length_cons]; omega)
      (fun p q hp _ _ => absurd hp (by omega))
    rw [pairwise_le_iff_getD]
    intro p q hpq hq
    have hlen : (selLoopGo ((x :: t).length - 1) (x :: t) 0).1.length
        = (x :: t).length := hperm.length_eq
    have hlen2 : (selectionSort (x :: t)).1.length
        = (selLoopGo ((x :: t).length - 1) (x :: t) 0).1.length := rfl
    exact hsort p q hpq (by omega)

/-- On an array whose `getD` reads are already pairwise ordered, every
remaining selection iteration is the identity and emits nothing. -/
theorem selLoopGo_sorted_input : ∀ (k : Nat) (a : List Int) (i : Nat),
    (∀ p q, p < q → q < a.length → a.getD p 0 ≤ a.getD q 0) →
    selLoopGo k a i = (a, [])
  | 0, a, i, _ => rfl
  | k + 1, a, i, hsort => by
    have hmi : findMinIdx a i = i := by
      by_contra hne
      obtain ⟨j, hij, hjn, hlt⟩ := (findMinIdx_ne_iff a i).mp hne
      exact absurd (hsort i j hij hjn) (not_le.mpr hlt)
    have hstep : selStep a i = (a, []) := by simp [selStep, hmi]
    simp [selLoopGo, hstep, selLoopGo_sorted_input k a (i + 1) hsort]

/-- A sorted input makes the whole selection run a no-op with zero render
events. -/
theorem selectionSort_sorted_input (a : List Int)
    (h : List.Chain' (· ≤ ·) a) : selectionSort a = (a, []) := by
  apply selLoopGo_sorted_input
  intro p q hpq hq
  have hpair : a.Pairwise (· ≤ ·) := List.chain'_iff_pairwise.mp h
  exact (pairwise_le_iff_getD a).mp hpair p q hpq hq

/-- The number of render events of a selection run, recomputed from the
per-position swap condition `minIndex ≠ i`. -/
def selSwapCount : Nat → List Int → Nat → Nat
  | 0, _, _ => 0
  | k + 1, a, i =>
    (if findMinIdx a i ≠ i then 1 else 0) + selSwapCount k (selStep a i).1 (i + 1)

/-- Each outer-loop position contributes exactly one render event when its
suffix minimum is out of place and none otherwise. -/
theorem selLoopGo_events_length : ∀ (k : Nat) (a : List Int) (i : Nat),
    (selLoopGo k a i).2.length = selSwapCount k a i
  | 0, _, _ => rfl
  | k + 1, a, i => by
    by_cases hmi : findMinIdx a i ≠ i
    · have hstep : selStep a i = (swapIdx a i (findMinIdx a i),
          [⟨[i, findMinIdx a i], swapIdx a i (findMinIdx a i)⟩]) := by
        simp [selStep, hmi]
      simp [selLoopGo, selSwapCount, hstep, hmi,
        selLoopGo_events_length k (swapIdx a i (findMinIdx a i)) (i + 1)]
      omega
    · have hstep : selStep a i = (a, []) := by
        simp only [not_not] at hmi
        simp [selStep, hmi]
      simp [selLoopGo, selSwapCount, hstep, hmi,
        selLoopGo_events_length k a (i + 1)]

/- ### Insertion sort (lines 102–123)

```js
async function insertionSort() {
  const { array } = sortStates.insertion;
  const n = array.length;
  for (let i = 1; i < n; i++) {
    const key = array[i];
    let j = i - 1;
    while (j >= 0 && array[j] > key) {
      array[j + 1] = array[j];
      createBars('insertion', array, [j, j + 1]);
      await ...;
      j--;
    }
    if (array[j + 1] !== key) {
      array[j + 1] = key;
      createBars('insertion', array, [j + 1]);
      await ...;
    }
  }
}
```

The inner `while` loop is embedded with the quantity `j + 1` as the
recursion parameter (so the JavaScript exit condition `j = -1` is the
`0` case); the returned `Nat` is the value of `j + 1` when the loop
stops, i.e. the slot tested by the settle conditional. -/

def insShift (key : Int) : List Int → Nat → List Int × List RenderEvent × Nat
  | a, 0 => (a, [], 0)
  | a, m + 1 =>
    if key < a.getD m 0 then
      let a2 := a.set (m + 1) (a.getD m 0)
      let p := insShift key a2 m
      (p.1, ⟨[m, m + 1], a2⟩ :: p.2.1, p.2.2)
    else (a, [], m + 1)

/-- One iteration of the outer `for` loop of `insertionSort` (index `i`):
the shift loop followed by the conditional settle write and render. -/
def insStep (a : List Int) (i : Nat) : List Int × List RenderEvent :=
  let key := a.getD i 0
  let p := insShift key a i
  if p.1.getD p.2.2 0 ≠ key then
    let a2 := p.1.set p.2.2 key
    (a2, p.2.1 ++ [⟨[p.2.2], a2⟩])
  else (p.1, p.2.1)

def insLoopGo : Nat → List Int → Nat → List Int × List RenderEvent
  | 0, a, _ => (a, [])
  | k + 1, a, i =>
    let p := insStep a i
    let q := insLoopGo k p.1 (i + 1)
    (q.1, p.2 ++ q.2)

/-- `insertionSort`: final array and the ordered render events of the run. -/
def insertionSort (a : List Int) : List Int × List RenderEvent :=
  insLoopGo (a.length - 1) a 1

example : insertionSort [1, 2, 3] = ([1, 2, 3], []) := by decide
example : insertionSort [2, 1] = ([1, 2], [⟨[0, 1], [2, 2]⟩, ⟨[0], [1, 2]⟩]) := by
  decide

/- ### Insertion sort lemmas -/

theorem take_set_of_le (x : Int) (n m : Nat) (l : List Int) (h : m ≤ n) :
    (l.set n x).take m = l.take m := by
  rw [List.set_take, List.set_eq_of_length_le]
  simp only [List.length_take]
  omega

/-- The shift loop either does nothing (returning the tested slot) or
shifts at least once, in which case the element left in the resting slot
is strictly greater than the key. -/
theorem insShift_cases : ∀ (m : Nat) (a : List Int) (key : Int),
    insShift key a m = (a, [], m) ∨
      ((insShift key a m).2.1 ≠ [] ∧
        key < (insShift key a m).1.getD (insShift key a m).2.2 0)
  | 0, _, _ => Or.inl rfl
  | m + 1, a, key => by
    by_cases hc : key < a.getD m 0
    · right
      rcases insShift_cases m (a.set (m + 1) (a.getD m 0)) key with heq | ⟨_, h2⟩
      · refine ⟨by simp only [insShift, if_pos hc]; simp, ?_⟩
        simp only [insShift, if_pos hc, heq]
        rw [getD_set_ne a (m + 1) m _ (by omega)]
        exact hc
      · refine ⟨by simp only [insShift, if_pos hc]; simp, ?_⟩
        simp only [insShift, if_pos hc]
        exact h2
    · exact Or.inl (by simp only [insShift, if_neg hc])

/-- When the shift loop did nothing, the settle conditional sees the key
itself and emits nothing: the whole iteration is the identity. -/
theorem insStep_of_no_shift (a : List Int) (i : Nat)
    (h : insShift (a.getD i 0) a i = (a, [], i)) : insStep a i = (a, []) := by
  simp only [insStep, h]
  simp

/-- When the shift loop shifted, the settle conditional fires: the key is
written to the resting slot and one extra render highlighting that single
slot is appended. -/
theorem insStep_of_shift (a : List Int) (i : Nat)
    (h2 : (a.getD i 0) <
      (insShift (a.getD i 0) a i).1.getD (insShift (a.getD i 0) a i).2.2 0) :
    insStep a i =
      ((insShift (a.getD i 0) a i).1.set (insShift (a.getD i 0) a i).2.2
          (a.getD i 0),
        (insShift (a.getD i 0) a i).2.1 ++
          [⟨[(insShift (a.getD i 0) a i).2.2],
            (insShift (a.getD i 0) a i).1.set (insShift (a.getD i 0) a i).2.2
              (a.getD i 0)⟩]) := by
  have hne : (insShift (a.getD i 0) a i).1.getD
      (insShift (a.getD i 0) a i).2.2 0 ≠ a.getD i 0 := ne_of_gt h2
  simp only [insStep, if_pos hne]

/-- Structure of the shift loop's result: the writes ripple the segment
`[pos, m)` one slot to the right of itself, the resting slot `pos` keeps
its old value, everything outside `[pos, m]` is untouched; every shifted
element was strictly greater than the key, and the element before the
resting slot (if any) is at most the key. -/
theorem insShift_structure : ∀ (m : Nat) (a : List Int) (key : Int),
    m < a.length →
    (insShift key a m).2.2 ≤ m ∧
    (insShift key a m).1 =
      a.take ((insShift key a m).2.2 + 1) ++
        (a.drop (insShift key a m).2.2).take (m - (insShift key a m).2.2) ++
        a.drop (m + 1) ∧
    (∀ j, (insShift key a m).2.2 ≤ j → j < m → key < a.getD j 0) ∧
    (0 < (insShift key a m).2.2 →
      a.getD ((insShift key a m).2.2 - 1) 0 ≤ key)
  | 0, a, key, _ => by
    refine ⟨Nat.le_refl _, ?_, fun j h1 h2 => absurd h2 (by omega),
      fun h => absurd h (lt_irrefl 0)⟩
    show a = a.take (0 + 1) ++ (a.drop 0).take (0 - 0) ++ a.drop (0 + 1)
    cases a <;> simp
  | m + 1, a, key, hlen => by
    by_cases hc : key < a.getD m 0
    · have hlen2 : (a.set (m + 1) (a.getD m 0)).length = a.length := by simp
      obtain ⟨ih0, ih1, ih2, ih3⟩ :=
        insShift_structure m (a.set (m + 1) (a.getD m 0)) key (by omega)
      simp only [insShift, if_pos hc]
      refine ⟨by omega, ?_, ?_, ?_⟩
      · rw [ih1]
        have e1 : (a.set (m + 1) (a.getD m 0)).take
            ((insShift key (a.set (m + 1) (a.getD m 0)) m).2.2 + 1) =
            a.take ((insShift key (a.set (m + 1) (a.getD m 0)) m).2.2 + 1) :=
          take_set_of_le _ _ _ _ (by omega)
        have e2 : ((a.set (m + 1) (a.getD m 0)).drop
              (insShift key (a.set (m + 1) (a.getD m 0)) m).2.2).take
              (m - (insShift key (a.set (m + 1) (a.getD m 0)) m).2.2) =
            (a.drop (insShift key (a.set (m + 1) (a.getD m 0)) m).2.2).take
              (m - (insShift key (a.set (m + 1) (a.getD m 0)) m).2.2) := by
          rw [List.drop_set, if_neg (by omega)]
          exact List.take_set_of_lt _ _ (by omega)
        have e3 : (a.set (m + 1) (a.getD m 0)).drop (m + 1) =
            a.getD m 0 :: a.drop (m + 1 + 1) := by
          rw [List.drop_set, if_neg (by omega), Nat.sub_self,
            List.drop_eq_getElem_cons (show m + 1 < a.length by omega),
            List.set_cons_zero]
        have e4 : (a.drop (insShift key (a.set (m + 1) (a.getD m 0)) m).2.2).take
              (m + 1 - (insShift key (a.set (m + 1) (a.getD m 0)) m).2.2) =
            (a.drop (insShift key (a.set (m + 1) (a.getD m 0)) m).2.2).take
              (m - (insShift key (a.set (m + 1) (a.getD m 0)) m).2.2) ++
              [a.getD m 0] := by
          have hm : m + 1 - (insShift key (a.set (m + 1) (a.getD m 0)) m).2.2 =
              (m - (insShift key (a.set (m + 1) (a.getD m 0)) m).2.2) + 1 := by
            omega
          rw [hm, List.take_succ]
          congr 1
          rw [List.getElem?_drop]
          have hidx : (insShift key (a.set (m + 1) (a.getD m 0)) m).2.2 +
              (m - (insShift key (a.set (m + 1) (a.getD m 0)) m).2.2) = m := by
            omega
          rw [hidx, List.getElem?_eq_getElem (by omega : m < a.length)]
          simp [List.getElem?_eq_getElem (show m < a.length by omega)]
        rw [e1, e2, e3, e4]
        simp [List.append_assoc]
      · intro j h1 h2
        rcases Nat.lt_or_ge j m with hjm | hjm
        · have := ih2 j h1 hjm
          rwa [getD_set_ne a (m + 1) j _ (by omega)] at this
        · have hj : j = m := by omega
          rw [hj]
          exact hc
      · intro hpos
        have := ih3 hpos
        rwa [getD_set_ne a (m + 1) _ _ (by omega)] at this
    · simp only [insShift, if_neg hc]
      refine ⟨le_refl _, ?_, fun j h1 h2 => absurd h2 (by omega), fun _ => ?_⟩
      · simp
      · show a.getD (m + 1 - 1) 0 ≤ key
        exact not_lt.mp hc

theorem set_append_left (s t : List Int) (n : Nat) (x : Int) (h : n < s.length) :
    (s ++ t).set n x = s.set n x ++ t := by
  rw [List.set_append, if_pos h]

theorem set_prefix_key (a : List Int) (pos : Nat) (key : Int)
    (h : pos < a.length) :
    (a.take (pos + 1)).set pos key = a.take pos ++ [key] := by
  have ht : a.take (pos + 1) = a.take pos ++ [a[pos]] := by
    rw [← List.take_concat_get a pos h, List.concat_eq_append]
  rw [ht, List.set_append, if_neg (by simp)]
  have h0 : pos - (a.take pos).length = 0 := by
    simp only [List.length_take]
    omega
  rw [h0, List.set_cons_zero]

/-- Master description of one insertion iteration: there is a resting
position `pos ≤ i` such that the iteration rewrites the array to
"prefix before `pos`, then the key, then the shifted segment, then the
untouched suffix"; all elements of the shifted segment were strictly
greater than the key and the element before `pos` (if any) is at most
the key. -/
theorem insStep_eq (a : List Int) (i : Nat) (hi : i < a.length) :
    ∃ pos, pos ≤ i ∧
      (insStep a i).1 =
        a.take pos ++ a.getD i 0 ::
          ((a.drop pos).take (i - pos) ++ a.drop (i + 1)) ∧
      (∀ j, pos ≤ j → j < i → a.getD i 0 < a.getD j 0) ∧
      (0 < pos → a.getD (pos - 1) 0 ≤ a.getD i 0) := by
  obtain ⟨hpos, hstruct, hgt, hble⟩ := insShift_structure i a (a.getD i 0) hi
  rcases insShift_cases i a (a.getD i 0) with heq | ⟨_, h2⟩
  · rw [heq] at hpos hgt hble
    refine ⟨i, le_refl i, ?_, hgt, hble⟩
    rw [insStep_of_no_shift a i heq]
    show a = _
    simp only [Nat.sub_self, List.take_zero, List.nil_append]
    rw [getD_eq_getElem_of_lt a i hi, ← List.drop_eq_getElem_cons hi,
      List.take_append_drop]
  · refine ⟨(insShift (a.getD i 0) a i).2.2, hpos, ?_, hgt, hble⟩
    rw [insStep_of_shift a i h2]
    show (insShift (a.getD i 0) a i).1.set
        (insShift (a.getD i 0) a i).2.2 (a.getD i 0) = _
    rw [hstruct,
      set_append_left _ _ _ _
        (by simp only [List.length_append, List.length_take, List.length_drop]
            omega),
      set_append_left _ _ _ _
        (by simp only [List.length_take]
            omega),
      set_prefix_key a _ _ (by omega)]
    simp [List.append_assoc]

theorem insStep_perm (a : List Int) (i : Nat) (hi : i < a.length) :
    (insStep a i).1.Perm a := by
  obtain ⟨pos, hpos, heq, _, _⟩ := insStep_eq a i hi
  rw [heq]
  have hstep1 : (a.getD i 0 ::
      ((a.drop pos).take (i - pos) ++ a.drop (i + 1))).Perm
      ((a.drop pos).take (i - pos) ++ a.getD i 0 :: a.drop (i + 1)) :=
    List.perm_middle.symm
  have hform : a.take pos ++ ((a.drop pos).take (i - pos) ++
      a.getD i 0 :: a.drop (i + 1)) = a := by
    rw [getD_eq_getElem_of_lt a i hi, ← List.drop_eq_getElem_cons hi]
    have hdd : a.drop i = (a.drop pos).drop (i - pos) := by
      rw [List.drop_drop]
      congr 1
      omega
    rw [hdd, List.take_append_drop, List.take_append_drop]
  exact (List.Perm.append_left (a.take pos) hstep1).trans
    (by rw [hform])

theorem insStep_take_pairwise (a : List Int) (i : Nat) (hi : i < a.length)
    (hpw : (a.take i).Pairwise (· ≤ ·)) :
    ((insStep a i).1.take (i + 1)).Pairwise (· ≤ ·) := by
  obtain ⟨pos, hpos, heq, hgt, hble⟩ := insStep_eq a i hi
  have heq2 : (insStep a i).1 =
      (a.take pos ++ a.getD i 0 :: (a.drop pos).take (i - pos)) ++
        a.drop (i + 1) := by
    rw [heq]
    simp [List.append_assoc]
  have hlenpre : (a.take pos ++ a.getD i 0 ::
      (a.drop pos).take (i - pos)).length = i + 1 := by
    simp only [List.length_append, List.length_take, List.length_cons,
      List.length_drop]
    omega
  rw [heq2, List.take_left' hlenpre]
  have htake : a.take i = a.take pos ++ (a.drop pos).take (i - pos) := by
    conv_lhs => rw [show i = pos + (i - pos) from by omega, List.take_add]
  rw [htake, List.pairwise_append] at hpw
  obtain ⟨hpwT, hpwS, hcross⟩ := hpw
  rw [List.pairwise_append]
  refine ⟨hpwT, ?_, ?_⟩
  · rw [List.pairwise_cons]
    refine ⟨?_, hpwS⟩
    intro y hy
    obtain ⟨t, ht, rfl⟩ := List.mem_iff_getElem.mp hy
    have htlen : t < i - pos := by
      simp only [List.length_take, List.length_drop] at ht
      omega
    have hyv : ((a.drop pos).take (i - pos))[t] = a[pos + t] := by
      simp
    rw [hyv]
    have h2 := hgt (pos + t) (by omega) (by omega)
    rw [getD_eq_getElem_of_lt a (pos + t) (by omega)] at h2
    exact le_of_lt h2
  · intro x hx y hy
    rcases List.mem_cons.mp hy with rfl | hy2
    · obtain ⟨t, ht, rfl⟩ := List.mem_iff_getElem.mp hx
      have htpos : t < pos := by
        simp only [List.length_take] at ht
        omega
      have hxv : (a.take pos)[t] = a[t] := by simp
      rw [hxv]
      have hb := hble (by omega)
      rw [getD_eq_getElem_of_lt a (pos - 1) (by omega)] at hb
      rcases Nat.lt_or_ge t (pos - 1) with htp | htp
      · have hTp := List.pairwise_iff_getElem.mp hpwT t (pos - 1)
          (by simp only [List.length_take]; omega)
          (by simp only [List.length_take]; omega) (by omega)
        simp only [List.getElem_take] at hTp
        exact le_trans hTp hb
      · have ht1 : t = pos - 1 := by omega
        subst ht1
        exact hb
    · exact hcross x hx y hy2

/-- Outer-loop invariant of `insertionSort`: with the first `i` slots
already pairwise ordered, the remaining iterations deliver a pairwise
ordered permutation. -/
theorem insLoopGo_sorted_perm : ∀ (k : Nat) (a : List Int) (i : Nat),
    k + i = a.length → 1 ≤ i → (a.take i).Pairwise (· ≤ ·) →
    (insLoopGo k a i).1.Perm a ∧ (insLoopGo k a i).1.Pairwise (· ≤ ·)
  | 0, a, i, hlen, _, hpw => by
    simp only [insLoopGo]
    have hta : a.take i = a := by
      rw [show i = a.length from by omega, List.take_length]
    exact ⟨List.Perm.refl a, by rwa [hta] at hpw⟩
  | k + 1, a, i, hlen, hi1, hpw => by
    have hi : i < a.length := by omega
    have hperm := insStep_perm a i hi
    have hpw' := insStep_take_pairwise a i hi hpw
    have hlen2 : (insStep a i).1.length = a.length := hperm.length_eq
    obtain ⟨ihp, ihs⟩ := insLoopGo_sorted_perm k (insStep a i).1 (i + 1)
      (by omega) (by omega) hpw'
    simp only [insLoopGo]
    exact ⟨ihp.trans hperm, ihs⟩

theorem insertionSort_perm (a : List Int) : (insertionSort a).1.Perm a := by
  match a with
  | [] => simp [insertionSort, insLoopGo]
  | x :: t =>
    exact (insLoopGo_sorted_perm ((x :: t).length - 1) (x :: t) 1
      (by simp only [List.length_cons]; omega) (le_refl 1) (by simp)).1

theorem insertionSort_sorted (a : List Int) :
    (insertionSort a).1.Pairwise (· ≤ ·) := by
  match a with
  | [] => simp [insertionSort, insLoopGo]
  | x :: t =>
    exact (insLoopGo_sorted_perm ((x :: t).length - 1) (x :: t) 1
      (by simp only [List.length_cons]; omega) (le_refl 1) (by simp)).2

/-- When the element before `i` is already at most the element at `i`,
the shift loop never fires and the iteration is the identity. -/
theorem insStep_id_of_le (a : List Int) (i : Nat) (hi : 1 ≤ i)
    (hle : a.getD (i - 1) 0 ≤ a.getD i 0) : insStep a i = (a, []) := by
  obtain ⟨m, rfl⟩ : ∃ m, i = m + 1 := ⟨i - 1, by omega⟩
  have hle' : a.getD m 0 ≤ a.getD (m + 1) 0 := by
    simpa using hle
  have hshift : insShift (a.getD (m + 1) 0) a (m + 1) = (a, [], m + 1) := by
    simp only [insShift, if_neg (not_lt.mpr hle')]
  exact insStep_of_no_shift a (m + 1) hshift

/-- On an array whose `getD` reads are already pairwise ordered, every
insertion iteration is the identity and emits nothing. -/
theorem insLoopGo_sorted_input : ∀ (k : Nat) (a : List Int) (i : Nat),
    k + i = a.length → 1 ≤ i →
    (∀ p q, p < q → q < a.length → a.getD p 0 ≤ a.getD q 0) →
    insLoopGo k a i = (a, [])
  | 0, _, _, _, _, _ => rfl
  | k + 1, a, i, hlen, hi1, hsort => by
    have hstep : insStep a i = (a, []) :=
      insStep_id_of_le a i hi1 (hsort (i - 1) i (by omega) (by omega))
    simp [insLoopGo, hstep,
      insLoopGo_sorted_input k a (i + 1) (by omega) (by omega) hsort]

/-- A sorted input makes the whole insertion run a no-op with zero render
events. -/
theorem insertionSort_sorted_input (a : List Int)
    (h : List.Chain' (· ≤ ·) a) : insertionSort a = (a, []) := by
  match a with
  | [] => rfl
  | x :: t =>
    apply insLoopGo_sorted_input _ _ _ (by simp only [List.length_cons]; omega)
      (le_refl 1)
    intro p q hpq hq
    exact (pairwise_le_iff_getD (x :: t)).mp (List.chain'_iff_pairwise.mp h)
      p q hpq hq

/- ### Quick sort and merge sort (spec §4.3, §9)

The visible source implements only bubble, selection and insertion sort;
quick and merge sort have state records but no algorithm (spec §9: "the
source provides full animation logic only for bubble, selection, and
insertion sort").  The two definitions below are therefore modelled from
the spec, which requires "their respective standard recursive
partition/merge strategies" with the exact scheme left to the
implementer. -/

/-- Modelled from the spec: quick sort is absent from the source; §4.3
lets the implementer choose "any standard partition scheme".  This is the
standard recursive filter partition around a pivot. -/
def quickSortRec : List Int → List Int
  | [] => []
  | p :: rest =>
    quickSortRec (rest.filter (fun x => decide (x < p))) ++
      p :: quickSortRec (rest.filter (fun x => ! decide (x < p)))
termination_by l => l.length
decreasing_by
  · simp only [List.length_cons]
    exact Nat.lt_succ_of_le (List.length_filter_le _ _)
  · simp only [List.length_cons]
    exact Nat.lt_succ_of_le (List.length_filter_le _ _)

/-- Modelled from the spec: merge sort is absent from the source; §4.3
lets the implementer choose "any standard merge strategy", so the
standard library's split-in-two merge sort is used as the model. -/
def mergeSortModel (l : List Int) : List Int :=
  l.mergeSort (fun x y => decide (x ≤ y))

theorem quickSortRec_perm : ∀ (l : List Int), (quickSortRec l).Perm l
  | [] => by simp [quickSortRec]
  | p :: rest => by
    rw [quickSortRec]
    have ih1 := quickSortRec_perm (rest.filter (fun x => decide (x < p)))
    have ih2 := quickSortRec_perm (rest.filter (fun x => ! decide (x < p)))
    exact List.perm_middle.trans
      (((ih1.append ih2).trans (List.filter_append_perm _ rest)).cons p)
termination_by l => l.length
decreasing_by
  · simp only [List.length_cons]
    exact Nat.lt_succ_of_le (List.length_filter_le _ _)
  · simp only [List.length_cons]
    exact Nat.lt_succ_of_le (List.length_filter_le _ _)

theorem quickSortRec_sorted : ∀ (l : List Int),
    (quickSortRec l).Pairwise (· ≤ ·)
  | [] => by simp [quickSortRec]
  | p :: rest => by
    rw [quickSortRec]
    rw [List.pairwise_append]
    refine ⟨quickSortRec_sorted _, ?_, ?_⟩
    · rw [List.pairwise_cons]
      refine ⟨?_, quickSortRec_sorted _⟩
      intro y hy
      have hy' : y ∈ rest.filter (fun x => ! decide (x < p)) :=
        (quickSortRec_perm _).mem_iff.mp hy
      have := List.of_mem_filter hy'
      exact not_lt.mp (by simpa using this)
    · intro x hx y hy
      have hx' : x ∈ rest.filter (fun x => decide (x < p)) :=
        (quickSortRec_perm _).mem_iff.mp hx
      have hxp : x < p := by simpa using List.of_mem_filter hx'
      rcases List.mem_cons.mp hy with rfl | hy2
      · exact le_of_lt hxp
      · have hy' : y ∈ rest.filter (fun x => ! decide (x < p)) :=
          (quickSortRec_perm _).mem_iff.mp hy2
        have hpy : p ≤ y := not_lt.mp (by simpa using List.of_mem_filter hy')
        exact le_trans (le_of_lt hxp) hpy
termination_by l => l.length
decreasing_by
  · simp only [List.length_cons]
    exact Nat.lt_succ_of_le (List.length_filter_le _ _)
  · simp only [List.length_cons]
    exact Nat.lt_succ_of_le (List.length_filter_le _ _)

theorem mergeSortModel_perm (l : List Int) : (mergeSortModel l).Perm l :=
  List.mergeSort_perm l _

theorem mergeSortModel_sorted (l : List Int) :
    (mergeSortModel l).Pairwise (· ≤ ·) := by
  have htrans : ∀ (a b c : Int), (fun x y : Int => decide (x ≤ y)) a b →
      (fun x y : Int => decide (x ≤ y)) b c →
      (fun x y : Int => decide (x ≤ y)) a c := by
    intro a b c hab hbc
    simp only [decide_eq_true_eq] at hab hbc ⊢
    exact le_trans hab hbc
  have htotal : ∀ (a b : Int), ((fun x y : Int => decide (x ≤ y)) a b ||
      (fun x y : Int => decide (x ≤ y)) b a) = true := by
    intro a b
    simp only [Bool.or_eq_true, decide_eq_true_eq]
    exact le_total a b
  have h := List.sorted_mergeSort htrans htotal l
  exact h.imp (fun hab => by simpa using hab)

/- ### Sort state, generator and control surface (lines 1–58, 126–168)

`sortStates` (lines 8–14) keeps one mutable record
`{ array, isSorting, currentStep }` per variant; the start handlers
(lines 128–157) guard on `isSorting`, set it, `await` the sort, and clear
it; `resetArray` (lines 52–58) is the reset handler's body.  The `async`
runs are modelled by explicit cooperative steps: when a run is accepted,
the sequence of render events it will emit (computed by the variant's
sort function) becomes the list `rem` of pending suspension points, and
each `tick` resumes the run at one suspension point.  `fin` records the
array the run leaves behind on completion. -/

structure VarState where
  arr : List Int
  sorting : Bool
  step : Nat
  rem : List RenderEvent
  fin : List Int
deriving DecidableEq

/-- One variant's record as initialized on line 9: empty array, not
sorting, step counter zero (and no pending run). -/
def initState : VarState :=
  { arr := [], sorting := false, step := 0, rem := [], fin := [] }

/-- `generateRandomArray` (lines 24–29) with the random source explicit:
`draw i` stands for the `i`-th value of
`Math.floor(Math.random() * (MAX_VALUE - MIN_VALUE + 1))`, and size and
minimum are parameters so the spec's configuration surface (§6) can be
instantiated; the source fixes them to `ARRAY_SIZE` and `MIN_VALUE`. -/
def generateRandomArrayWith (size : Nat) (minV : Int) (draw : Nat → Nat) :
    List Int :=
  (List.range size).map (fun i => (draw i : Int) + minV)

def generateRandomArray (draw : Nat → Nat) : List Int :=
  generateRandomArrayWith ARRAY_SIZE MIN_VALUE draw

/-- `resetArray` (lines 52–58): rejected while sorting; otherwise the
array is replaced by a fresh snapshot, the step counter zeroed, and one
render with no highlights emitted (`createBars(type, array)`). -/
def resetArray (draw : Nat → Nat) (s : VarState) : VarState × List RenderEvent :=
  if s.sorting then (s, [])
  else
    ({ s with arr := generateRandomArray draw, step := 0 },
      [⟨[], generateRandomArray draw⟩])

/-- A start-button click handler (lines 128–133 and analogues): a request
arriving while `isSorting` is dropped; otherwise the run is accepted,
`isSorting` is set and the run's future renders become the pending
suspension points.  A run that emits nothing never suspends, so it
completes (and `isSorting` is cleared again) within the handler itself. -/
def startReq (sortFn : List Int → List Int × List RenderEvent)
    (s : VarState) : VarState :=
  if s.sorting then s
  else
    let r := sortFn s.arr
    if r.2.isEmpty then { s with arr := r.1 }
    else { s with sorting := true, rem := r.2, fin := r.1 }

/-- One resumption of the pending run at a suspension point: the next
pending render is emitted (the array shows its snapshot); consuming the
last one lets the handler's tail run, which stores the final array and
clears `isSorting`. -/
def tick (s : VarState) : VarState :=
  if s.sorting then
    match s.rem with
    | [] => { s with sorting := false }
    | [_] => { s with arr := s.fin, rem := [], sorting := false }
    | e :: rest => { s with arr := e.snapshot, rem := rest }
  else s

/-- States reachable from the initial record through the wired
operations: reset requests, start requests for the three implemented
algorithms, and resumptions of a pending run. -/
inductive Reachable : VarState → Prop
  | init : Reachable initState
  | reset : ∀ s draw, Reachable s → Reachable (resetArray draw s).1
  | startBubble : ∀ s, Reachable s → Reachable (startReq bubbleSort s)
  | startSelection : ∀ s, Reachable s → Reachable (startReq selectionSort s)
  | startInsertion : ∀ s, Reachable s → Reachable (startReq insertionSort s)
  | tick : ∀ s, Reachable s → Reachable (tick s)

/-- While a run with `n` pending suspension points is active, the busy
flag stays set at the first `n - 1` resumptions and is cleared exactly at
the `n`-th. -/
theorem tick_sorting_iter : ∀ (n : Nat) (s : VarState),
    s.sorting = true → s.rem.length = n →
    (∀ k, k < n → (tick^[k] s).sorting = true) ∧
    (0 < n → (tick^[n] s).sorting = false)
  | 0, s, hs, hlen =>
    ⟨fun k hk => absurd hk (by omega), fun h => absurd h (by omega)⟩
  | n + 1, s, hs, hlen => by
    rcases hrem : s.rem with _ | ⟨e, rest⟩
    · rw [hrem] at hlen
      simp at hlen
    · rcases hrest : rest with _ | ⟨e2, rest2⟩
      · have hn : n = 0 := by
          rw [hrem, hrest] at hlen
          simpa using hlen.symm
        subst hn
        have htick : tick s = { s with arr := s.fin, rem := [], sorting := false } := by
          rw [tick, if_pos hs, hrem, hrest]
        refine ⟨fun k hk => ?_, fun _ => ?_⟩
        · have hk0 : k = 0 := by omega
          rw [hk0]
          simpa using hs
        · rw [Function.iterate_one, htick]
      · have htick : tick s = { s with arr := e.snapshot, rem := rest } := by
          rw [tick, if_pos hs, hrem, hrest]
        have hlen2 : (tick s).rem.length = n := by
          rw [htick]
          rw [hrem, hrest] at hlen
          simpa [hrest] using hlen
        have hsort2 : (tick s).sorting = true := by rw [htick]; exact hs
        obtain ⟨ih1, ih2⟩ := tick_sorting_iter n (tick s) hsort2 hlen2
        refine ⟨fun k hk => ?_, fun _ => ?_⟩
        · match k with
          | 0 => simpa using hs
          | k' + 1 =>
            rw [Function.iterate_succ_apply]
            exact ih1 k' (by omega)
        · rw [Function.iterate_succ_apply]
          apply ih2
          have : rest ≠ [] := by rw [hrest]; simp
          rw [hrem, hrest] at hlen
          simp at hlen
          omega

/- ### Claim theorems -/

/-- C1: for each of the five variants, running the algorithm to
completion turns the variant's array into a non-decreasing sequence that
is a permutation of the input array (quick and merge sort are modelled
from the spec, as the source does not implement them). -/
theorem claim_C1_sort_correctness (l : List Int) :
    ((bubbleSort l).1.Pairwise (· ≤ ·) ∧ (bubbleSort l).1.Perm l) ∧
    ((selectionSort l).1.Pairwise (· ≤ ·) ∧ (selectionSort l).1.Perm l) ∧
    ((insertionSort l).1.Pairwise (· ≤ ·) ∧ (insertionSort l).1.Perm l) ∧
    ((quickSortRec l).Pairwise (· ≤ ·) ∧ (quickSortRec l).Perm l) ∧
    ((mergeSortModel l).Pairwise (· ≤ ·) ∧ (mergeSortModel l).Perm l) :=
  ⟨⟨List.chain'_iff_pairwise.mp (bubbleSort_sorted l), bubbleSort_perm l⟩,
    ⟨selectionSort_sorted l, selectionSort_perm l⟩,
    ⟨insertionSort_sorted l, insertionSort_perm l⟩,
    ⟨quickSortRec_sorted l, quickSortRec_perm l⟩,
    ⟨mergeSortModel_sorted l, mergeSortModel_perm l⟩⟩

/-- C4 counterexample: on input `[5,3,8,1]` the insertion-sort run emits
six render events, not five, and the first render shows the mid-shift
state `[5,5,8,1]` highlighting `(0,1)`, not the settled state
`[3,5,8,1]` claimed for the first render. -/
theorem claim_C4_counterexample :
    (insertionSort [5, 3, 8, 1]).2.length = 6 ∧
    ¬ ((insertionSort [5, 3, 8, 1]).2.length = 5) ∧
    ¬ ((insertionSort [5, 3, 8, 1]).2.headD ⟨[], []⟩ =
        ⟨[0, 1], [3, 5, 8, 1]⟩) := by
  decide

/-- C4 amended: on input `[5,3,8,1]` insertion sort emits exactly these
six renders, in order: for element 3, a shift render highlighting (0,1)
with state `[5,5,8,1]` followed by a settle render highlighting 0 with
state `[3,5,8,1]`; no render for element 8; three shift renders for
element 1 past 8, 5 and 3; and a final settle render highlighting 0 with
final state `[1,3,5,8]`. -/
theorem claim_C4_amended :
    insertionSort [5, 3, 8, 1] =
      ([1, 3, 5, 8],
        [⟨[0, 1], [5, 5, 8, 1]⟩, ⟨[0], [3, 5, 8, 1]⟩,
          ⟨[2, 3], [3, 5, 8, 8]⟩, ⟨[1, 2], [3, 5, 5, 8]⟩,
          ⟨[0, 1], [3, 3, 5, 8]⟩, ⟨[0], [1, 3, 5, 8]⟩]) := by
  decide

/-- C5: a selection-sort position emits one render, highlighting `i` and
the minimum's index, exactly when the suffix minimum sits strictly after
`i` (equivalently, some later element is strictly smaller); in-place
minima emit nothing, and the run's total render count equals the number
of positions whose iteration swapped. -/
theorem claim_C5_selection_render_iff (a : List Int) (i k : Nat) :
    ((selStep a i).2 = (if findMinIdx a i = i then []
      else [⟨[i, findMinIdx a i], swapIdx a i (findMinIdx a i)⟩])) ∧
    (findMinIdx a i ≠ i ↔
      ∃ j, i < j ∧ j < a.length ∧ a.getD j 0 < a.getD i 0) ∧
    ((selLoopGo k a i).2.length = selSwapCount k a i) ∧
    ((selectionSort a).2.length = selSwapCount (a.length - 1) a 0) := by
  refine ⟨?_, findMinIdx_ne_iff a i, selLoopGo_events_length k a i,
    selLoopGo_events_length (a.length - 1) a 0⟩
  by_cases h : findMinIdx a i = i <;> simp [selStep, h]

/-- C9: the bubble-sort `do … while (swapped)` loop terminates on every
finite array: iterated full passes always reach one that performs zero
swaps, a full pass over the final array swaps nothing, and the run
satisfies exactly the do-while recurrence — it repeats from the passed
array when the pass swapped and exits otherwise. -/
theorem claim_C9_bubble_terminates (l : List Int) :
    (∃ k, (bubblePass ((fun a => (bubblePass a).1)^[k] l)).2.2 = false) ∧
    (bubblePass (bubbleSort l).1).2.2 = false ∧
    bubbleSort l =
      (if (bubblePass l).2.2 then
        ((bubbleSort (bubblePass l).1).1,
          (bubblePass l).2.1 ++ (bubbleSort (bubblePass l).1).2)
      else ((bubblePass l).1, (bubblePass l).2.1)) :=
  ⟨bubblePass_eventually_no_swap_of_lt (inversions l + 1) l (by omega),
    bubbleSort_final_pass l, bubbleSort_unfold l⟩

/-- C2: a start request arriving while a variant's busy flag is set is
dropped: the whole state, pending run included, is untouched and no
second run begins; an accepted request sets the flag exactly when the run
has a suspension point, the flag stays set through every resumption of
the pending run, and it is cleared exactly at the run's natural
completion. -/
theorem claim_C2_start_guard (f : List Int → List Int × List RenderEvent)
    (s : VarState) :
    (s.sorting = true → startReq f s = s) ∧
    (s.sorting = false → ((startReq f s).sorting = true ↔ (f s.arr).2 ≠ [])) ∧
    (s.sorting = true → ∀ k, k < s.rem.length → (tick^[k] s).sorting = true) ∧
    (s.sorting = true → s.rem ≠ [] →
      (tick^[s.rem.length] s).sorting = false) := by
  refine ⟨?_, ?_, ?_, ?_⟩
  · intro h
    simp [startReq, h]
  · intro h
    by_cases he : (f s.arr).2.isEmpty
    · have he' : (f s.arr).2 = [] := by simpa using he
      simp [startReq, h, he, he']
    · have he' : (f s.arr).2 ≠ [] := by simpa using he
      simp [startReq, h, he, he']
  · intro h k hk
    exact (tick_sorting_iter s.rem.length s h rfl).1 k hk
  · intro h hne
    exact (tick_sorting_iter s.rem.length s h rfl).2 (List.length_pos.mpr hne)

/-- C2 witness: a concrete busy state drops a bubble start unchanged,
stays busy through its pending render, completes after it; a concrete
idle state accepts a start. -/
theorem claim_C2_start_guard_witness :
    startReq bubbleSort
        { arr := [2, 1], sorting := true, step := 0,
          rem := [⟨[0, 1], [1, 2]⟩], fin := [1, 2] } =
      { arr := [2, 1], sorting := true, step := 0,
        rem := [⟨[0, 1], [1, 2]⟩], fin := [1, 2] } ∧
    (tick^[0] { arr := [2, 1], sorting := true, step := 0,
                rem := [⟨[0, 1], [1, 2]⟩], fin := [1, 2] }).sorting = true ∧
    (tick^[1] { arr := [2, 1], sorting := true, step := 0,
                rem := [⟨[0, 1], [1, 2]⟩], fin := [1, 2] }).sorting = false ∧
    (startReq bubbleSort
      { arr := [2, 1], sorting := false, step := 0,
        rem := [], fin := [] }).sorting = true := by
  refine ⟨(claim_C2_start_guard bubbleSort _).1 rfl,
    (claim_C2_start_guard bubbleSort _).2.2.1 rfl 0 (by decide), ?_,
    ((claim_C2_start_guard bubbleSort _).2.1 rfl).mpr (by decide)⟩
  exact (claim_C2_start_guard bubbleSort
    { arr := [2, 1], sorting := true, step := 0,
      rem := [⟨[0, 1], [1, 2]⟩], fin := [1, 2] }).2.2.2 rfl (by decide)

/-- C3: reset while busy is a complete no-op — same record, no render, no
error (the operation is total); reset while idle installs the fresh
snapshot, zeroes the step counter, leaves everything else unchanged, and
emits exactly one render with an empty highlight set. -/
theorem claim_C3_reset (draw : Nat → Nat) (s : VarState) :
    (s.sorting = true → resetArray draw s = (s, [])) ∧
    (s.sorting = false →
      (resetArray draw s).1.arr = generateRandomArray draw ∧
      (resetArray draw s).1.step = 0 ∧
      (resetArray draw s).1.sorting = false ∧
      (resetArray draw s).1.rem = s.rem ∧
      (resetArray draw s).1.fin = s.fin ∧
      (resetArray draw s).2 = [⟨[], generateRandomArray draw⟩]) := by
  constructor
  · intro h
    simp [resetArray, h]
  · intro h
    simp [resetArray, h]

/-- C3 witness: reset on a concrete busy state and a concrete idle
state. -/
theorem claim_C3_reset_witness :
    resetArray (fun _ => 0)
        { arr := [7], sorting := true, step := 0, rem := [], fin := [] } =
      ({ arr := [7], sorting := true, step := 0, rem := [], fin := [] }, []) ∧
    (resetArray (fun _ => 0) initState).1.arr =
      generateRandomArray (fun _ => 0) ∧
    (resetArray (fun _ => 0) initState).1.step = 0 ∧
    (resetArray (fun _ => 0) initState).2 =
      [⟨[], generateRandomArray (fun _ => 0)⟩] :=
  ⟨(claim_C3_reset (fun _ => 0) _).1 rfl,
    ((claim_C3_reset (fun _ => 0) initState).2 rfl).1,
    ((claim_C3_reset (fun _ => 0) initState).2 rfl).2.1,
    ((claim_C3_reset (fun _ => 0) initState).2 rfl).2.2.2.2.2⟩

/-- C6: in an insertion iteration, the extra settle render (highlighting
the single resting slot) is emitted exactly when the shift loop shifted
at least once; with no shift the iteration emits nothing at all. -/
theorem claim_C6_settle_iff (a : List Int) (i : Nat) :
    ((insShift (a.getD i 0) a i).2.1 = [] → insStep a i = (a, [])) ∧
    ((insShift (a.getD i 0) a i).2.1 ≠ [] →
      insStep a i =
        ((insShift (a.getD i 0) a i).1.set (insShift (a.getD i 0) a i).2.2
            (a.getD i 0),
          (insShift (a.getD i 0) a i).2.1 ++
            [⟨[(insShift (a.getD i 0) a i).2.2],
              (insShift (a.getD i 0) a i).1.set
                (insShift (a.getD i 0) a i).2.2 (a.getD i 0)⟩])) := by
  rcases insShift_cases i a (a.getD i 0) with heq | ⟨hne, h2⟩
  · constructor
    · intro _
      exact insStep_of_no_shift a i heq
    · intro hn
      rw [heq] at hn
      exact absurd rfl hn
  · constructor
    · intro h0
      exact absurd h0 hne
    · intro _
      exact insStep_of_shift a i h2

/-- C6 witness: the iteration at `i = 1` on `[5,3]` shifts and settles
(two renders, the second highlighting the resting slot 0); on the sorted
`[1,2]` it shifts nothing and emits nothing. -/
theorem claim_C6_settle_iff_witness :
    insStep [5, 3] 1 = ([3, 5], [⟨[0, 1], [5, 5]⟩, ⟨[0], [3, 5]⟩]) ∧
    insStep [1, 2] 1 = ([1, 2], []) := by
  constructor
  · rw [(claim_C6_settle_iff [5, 3] 1).2 (by decide)]
    decide
  · exact (claim_C6_settle_iff [1, 2] 1).1 (by decide)

/-- C7: every generated array has exactly the configured length and all
its elements lie in the configured inclusive range; the source's
configuration is size 20 and range `[5, 95]`, and size 0 yields the empty
sequence.  `draw i` is the `i`-th value of
`Math.floor(Math.random() * (maxV - minV + 1))`, which lies in
`[0, maxV - minV]`. -/
theorem claim_C7_generator (size : Nat) (minV maxV : Int) (draw : Nat → Nat)
    (hdraw : ∀ i, (draw i : Int) ≤ maxV - minV) :
    (generateRandomArrayWith size minV draw).length = size ∧
    (∀ x ∈ generateRandomArrayWith size minV draw, minV ≤ x ∧ x ≤ maxV) ∧
    (generateRandomArray draw).length = ARRAY_SIZE ∧
    generateRandomArrayWith 0 minV draw = [] := by
  refine ⟨by simp [generateRandomArrayWith], ?_,
    by simp [generateRandomArray, generateRandomArrayWith],
    by simp [generateRandomArrayWith]⟩
  intro x hx
  simp only [generateRandomArrayWith, List.mem_map, List.mem_range] at hx
  obtain ⟨i, _, rfl⟩ := hx
  have h0 : (0 : Int) ≤ (draw i : Int) := Int.ofNat_nonneg _
  have h1 := hdraw i
  constructor <;> omega

/-- C7 witness: the constant-zero random source, at the source's
configuration. -/
theorem claim_C7_generator_witness :
    (generateRandomArrayWith 20 5 (fun _ => 0)).length = 20 ∧
    generateRandomArrayWith 0 5 (fun _ => 0) = [] := by
  have hd : ∀ i, (((fun _ => 0) : Nat → Nat) i : Int) ≤ 95 - 5 := by
    intro i
    norm_num
  exact ⟨(claim_C7_generator 20 5 95 (fun _ => 0) hd).1,
    (claim_C7_generator 20 5 95 (fun _ => 0) hd).2.2.2⟩

/-- C8: on an already-sorted input, selection sort and insertion sort
emit zero render events over their whole runs, and bubble sort's single
full pass performs zero swaps (no events, `swapped` stays false), so the
run terminates after exactly that one pass, unchanged. -/
theorem claim_C8_sorted_input (l : List Int)
    (h : List.Chain' (· ≤ ·) l) :
    (selectionSort l).2 = [] ∧
    (insertionSort l).2 = [] ∧
    (bubblePass l).2.1 = [] ∧
    (bubblePass l).2.2 = false ∧
    bubbleSort l = (l, []) := by
  refine ⟨?_, ?_, ?_, ?_, ?_⟩
  · rw [selectionSort_sorted_input l h]
  · rw [insertionSort_sorted_input l h]
  · rw [bubblePass_of_sorted l h]
  · rw [bubblePass_of_sorted l h]
  · rw [bubbleSort_unfold l, bubblePass_of_sorted l h]
    simp

/-- C8 witness: the sorted array `[1, 2, 3]`. -/
theorem claim_C8_sorted_input_witness :
    List.Chain' (· ≤ ·) [(1 : Int), 2, 3] ∧
    (selectionSort [(1 : Int), 2, 3]).2 = [] ∧
    (insertionSort [(1 : Int), 2, 3]).2 = [] ∧
    bubbleSort [(1 : Int), 2, 3] = ([1, 2, 3], []) := by
  have hc : List.Chain' (· ≤ ·) [(1 : Int), 2, 3] := by
    norm_num [List.chain'_cons, List.chain'_singleton]
  exact ⟨hc, (claim_C8_sorted_input [1, 2, 3] hc).1,
    (claim_C8_sorted_input [1, 2, 3] hc).2.1,
    (claim_C8_sorted_input [1, 2, 3] hc).2.2.2.2⟩

theorem startReq_step (f : List Int → List Int × List RenderEvent)
    (s : VarState) : (startReq f s).step = s.step := by
  by_cases hs : s.sorting = true
  · simp [startReq, hs]
  · by_cases he : (f s.arr).2.isEmpty <;> simp [startReq, hs, he]

theorem tick_step (s : VarState) : (tick s).step = s.step := by
  by_cases hs : s.sorting = true
  · rcases hrem : s.rem with _ | ⟨e, rest⟩
    · simp [tick, hs, hrem]
    · rcases rest with _ | ⟨e2, rest2⟩ <;> simp [tick, hs, hrem]
  · simp [tick, hs]

/-- C10 (implicit): in every reachable per-variant state the step counter
is zero — it starts at zero, `resetArray` writes zero, and no other wired
operation ever touches it, so the "monotonically non-decreasing counter"
never advances. -/
theorem claim_C10_step_always_zero (s : VarState) (h : Reachable s) :
    s.step = 0 := by
  induction h with
  | init => rfl
  | reset s draw hr ih =>
    by_cases hs : s.sorting = true
    · simpa [resetArray, hs] using ih
    · simp [resetArray, hs]
  | startBubble s hr ih =>
    rw [startReq_step]
    exact ih
  | startSelection s hr ih =>
    rw [startReq_step]
    exact ih
  | startInsertion s hr ih =>
    rw [startReq_step]
    exact ih
  | tick s hr ih =>
    rw [tick_step]
    exact ih

/-- C10 witness: the initial state is reachable and a reachable
post-operation state still carries step counter zero. -/
theorem claim_C10_step_always_zero_witness :
    (startReq bubbleSort (resetArray (fun _ => 3) initState).1).step = 0 :=
  claim_C10_step_always_zero _
    (Reachable.startBubble _ (Reachable.reset _ (fun _ => 3) Reachable.init))
